import Mathlib

/-!
# Verification of the sunstone plugin registry core

Shallow embedding of `src/core/arch/DependencyCollection.js`, which contains
two concatenated modules: the `DependencyCollection` class (an array of
injector descriptors bound to an injector) and the `Registry` class (the
plugin map with the `resolve` / `satisfy` / `prioritize` bootstrap logic).

Modelling conventions:
* A JS `Plugin` object is modelled by the structure `SPlugin`.  The registry's
  internal object `this[plugins]` is an insertion-ordered string-keyed map,
  modelled as an association list `Reg` of key/plugin pairs (own keys only;
  the prototype chain of `{}` is not modelled).
* `resolve` (lines 250-282) stores *object references* in
  `plugin.dependencies` and `dependency.dependents`.  Every stored reference
  is the registry object found under a key, so references are modelled by the
  registry key of the target; `plugin.dependencies` / `plugin.dependents`
  are modelled as ordered key lists (JS object keys: unique, insertion
  ordered, re-assignment keeps the position).
* `prioritize` (lines 321-340) and `satisfy` (lines 292-312) operate on the
  array `_.values(this[plugins])`, a `List SPlugin`.  The identity test
  `target.indexOf(dependency) !== -1` is modelled by name equality, which
  agrees with JS object identity whenever each registry key maps to the
  plugin carrying that name (the invariant established by
  `registry.plugin(name, metadata)`, line 366).
* Both `prioritize` and `satisfy` iterate an array with
  `forEach((plugin, index) => ... splice(index, 1))`.  Per ECMA-262,
  `forEach` caches the length and removing the visited element shifts the
  array, so the element that directly follows each removed element is
  *skipped* in that pass (it stays in the array for the next pass).  The
  function `passFE` reproduces exactly this visit/skip discipline.
* The unbounded recursion of `satisfy` is modelled with explicit fuel:
  `satisfy fuel` returns `none` when the recursion exceeds `fuel` calls, so
  `(∀ fuel, ... = none)` states that the JS code recurses unboundedly.
* JS exceptions are modelled by the error message string that
  `new Error(...)` receives.
* The version check delegates to the external `semver` package
  (`semver.satisfies(version, range)`), which is not part of this
  repository; `resolve` is therefore parameterized by an arbitrary
  `sat : String → String → Bool` oracle, and `semverSatisfies` below is a
  spec-modelled instance used by concrete witnesses.
-/

/-- A plugin object (`Plugin` instance) as the registry sees it:
`name`, `metadata.version`, `metadata.dependencies` (declared name → range
pairs, insertion ordered), and the link objects `dependencies` /
`dependents` that `resolve()` populates (modelled as ordered key lists,
empty for a freshly constructed plugin whose link objects are undefined). -/
structure SPlugin where
  name : String
  version : String
  metaDeps : List (String × String)
  dependencies : List String
  dependents : List String
deriving DecidableEq, Repr

/-- The registry's plugin map `this[plugins]`: a string-keyed, insertion
ordered object, modelled as an association list of key/plugin pairs. -/
abbrev Reg := List (String × SPlugin)

/-- Object property lookup `this[plugins][k]` (own keys, first match). -/
def findP : Reg → String → Option SPlugin
  | [], _ => none
  | e :: rest, k => if e.1 = k then some e.2 else findP rest k

/-- In-place mutation of the plugin object stored under key `k`
(JS objects are mutated through the reference held in the map). -/
def updP (st : Reg) (k : String) (f : SPlugin → SPlugin) : Reg :=
  st.map (fun e => if e.1 = k then (e.1, f e.2) else e)

/-- JS object key assignment `obj[k] = v` on a key set: a fresh key is
appended, an existing key keeps its position (the stored value is always the
registry plugin named by the key, so only the key is recorded). -/
def oset (l : List String) (k : String) : List String :=
  if k ∈ l then l else l ++ [k]

/-- Lines 301-303: `dependencies.every(dependency => target.indexOf(dependency) !== -1)` —
all of the plugin's linked dependencies already occur in `target`
(object identity modelled by name, see the file comment). -/
def isSatisfied (p : SPlugin) (target : List SPlugin) : Bool :=
  p.dependencies.all (fun d => target.any (fun q => q.name = d))

/-- One `forEach((plugin, index) => { if ... { target.push(plugin); source.splice(index, 1) } })`
pass (lines 297-309, and the seeding pass of lines 326-334).  Returns the
grown `target` and the leftover `source`.  Because `splice` shifts the array
under the cached iteration bounds, the element following each moved element
is skipped (kept in `source`) for this pass. -/
def passFE (sat : SPlugin → List SPlugin → Bool) :
    List SPlugin → List SPlugin → List SPlugin × List SPlugin
  | target, [] => (target, [])
  | target, p :: rest =>
    if sat p target then
      match rest with
      | [] => (target ++ [p], [])
      | q :: rest2 =>
        let r := passFE sat (target ++ [p]) rest2
        (r.1, q :: r.2)
    else
      let r := passFE sat target rest
      (r.1, p :: r.2)

/-- Lines 292-312, `Registry.satisfy(ordered, remaining)`: run one pass, then
either finish (source exhausted) or recurse on the new lists.  The JS version
recurses with no progress check; `fuel` bounds the recursion depth, and
`none` means the JS code would still be recursing after `fuel` calls. -/
def Registry.satisfy (fuel : Nat) (ordered remaining : List SPlugin) :
    Option (List SPlugin) :=
  match fuel with
  | 0 => none
  | n + 1 =>
    let r := passFE isSatisfied ordered remaining
    if r.2.isEmpty then some r.1 else Registry.satisfy n r.1 r.2

/-- Lines 321-340, `Registry.prioritize()`: seed `ordered` with the plugins
whose `dependencies` object is missing or empty (same forEach/splice pass
shape), then hand over to `satisfy`.  The input list is
`_.values(this[plugins])` and the result is the new `prioritized`
collection. -/
def Registry.prioritize (plugins : List SPlugin) (fuel : Nat) :
    Option (List SPlugin) :=
  let r := passFE (fun p _ => p.dependencies.isEmpty) [] plugins
  Registry.satisfy fuel r.1 r.2

/-- Lines 194-196, `Registry.del(name)`: `return delete this[plugins][name]`.
JS `delete` on a configurable property of a plain object evaluates to `true`
whether or not the key is present; the key (if present) is removed. -/
def Registry.del (st : Reg) (n : String) : Bool × Reg :=
  (true, st.filter (fun e => e.1 ≠ n))

/-- Lines 177-185, `Registry.set(name, plugin)` (the well-typed branch:
the `instanceof Plugin` guard cannot fail for an `SPlugin` argument):
`this[plugins][name] = plugin; return plugin`.  Assignment to an existing
key keeps the key's position, a fresh key is appended. -/
def Registry.set (st : Reg) (n : String) (p : SPlugin) : Reg × SPlugin :=
  (if st.any (fun e => e.1 = n) then
    st.map (fun e => if e.1 = n then (n, p) else e)
  else st ++ [(n, p)], p)

/-- The plugin metadata object passed to `registry.plugin(name, metadata)`:
a `version` string and a `dependencies` map of name → range pairs. -/
structure PMeta where
  version : String
  dependencies : List (String × String)
deriving DecidableEq, Repr

/-- Lines 256-278, the body of `resolve`'s inner loop for one declared
dependency entry `e = (depName, range)` of the plugin stored under key `k`
whose `name` field is `pname`: presence check, version check against the
`sat` oracle (`semver.satisfies`), then the two link assignments
`dependency.dependents[plugin.name] = plugin` and
`plugin.dependencies[depName] = dependency`. -/
def resolveStep (sat : String → String → Bool) (st : Reg) (k pname : String)
    (e : String × String) : Except String Reg :=
  match findP st e.1 with
  | none => Except.error (s!"Dependency {e.1} missing.")
  | some dep =>
    if sat dep.version e.2 then
      Except.ok (updP (updP st e.1
        (fun b => { b with dependents := oset b.dependents pname })) k
        (fun a => { a with dependencies := oset a.dependencies e.1 }))
    else Except.error (s!"{e.1} {dep.version} does not satisfy {e.2}.")

/-- The inner `Object.keys(dependencies).forEach` of `resolve` (lines
256-278): process the entries of one plugin's `metadata.dependencies` in
order, stopping at the first thrown error (the thrown message is returned
together with the registry state at the moment of the throw, since JS
mutations made before the throw persist). -/
def resolveEntries (sat : String → String → Bool) (k pname : String) :
    List (String × String) → Reg → Option String × Reg
  | [], st => (none, st)
  | e :: rest, st =>
    match resolveStep sat st k pname e with
    | Except.error m => (some m, st)
    | Except.ok st1 => resolveEntries sat k pname rest st1

/-- The outer `Object.keys(this[plugins]).forEach` of `resolve` (lines
251-279): process each registered plugin's declared dependencies in
registration order, stopping at the first thrown error. -/
def resolvePlugins (sat : String → String → Bool) :
    List (String × String × List (String × String)) → Reg → Option String × Reg
  | [], st => (none, st)
  | pl :: rest, st =>
    match resolveEntries sat pl.1 pl.2.1 pl.2.2 st with
    | (some m, st1) => (some m, st1)
    | (none, st1) => resolvePlugins sat rest st1

/-- Lines 250-282, `Registry.resolve()`: iterate over the registered keys
(captured up front; `resolve` never adds or removes map entries, it only
mutates the plugin objects), validating and linking every declared
dependency.  The first component is the thrown error message (`none` on
success), the second the registry state afterwards. -/
def Registry.resolve (sat : String → String → Bool) (st : Reg) :
    Option String × Reg :=
  resolvePlugins sat (st.map (fun e => (e.1, e.2.name, e.2.metaDeps))) st

/-- An injector descriptor as `DependencyCollection` uses it: only the
`name` field is consulted by `values()` (line 64). -/
structure Descriptor where
  name : String
deriving DecidableEq, Repr

/-- Lines 63-65, `DependencyCollection.values()`:
`this.map(descriptor => this[injector].get(descriptor.name))`.  The bound
injector's `get` (an external collaborator, `injector.js` is not among the
sources) is modelled as an arbitrary fallible function `g`; `map` evaluates
the callback sequentially and the first exception propagates out of
`values()` unmodified. -/
def DependencyCollection.values {E V : Type} (g : String → Except E V) :
    List Descriptor → Except E (List V)
  | [] => Except.ok []
  | d :: rest =>
    match g d.name with
    | Except.error e => Except.error e
    | Except.ok v =>
      match DependencyCollection.values g rest with
      | Except.error e => Except.error e
      | Except.ok vs => Except.ok (v :: vs)

/-- `l` is topologically sound relative to the already-seen names `seen`:
every element's linked dependencies occur among `seen` or among the names
of the elements placed before it. -/
def TopoList : List String → List SPlugin → Prop
  | _, [] => True
  | seen, p :: rest =>
    (∀ d ∈ p.dependencies, d ∈ seen) ∧ TopoList (seen ++ [p.name]) rest

/-- How one plugin object may evolve during `resolve`: identity fields are
fixed, link key sets only grow. -/
def PluginEvol (p q : SPlugin) : Prop :=
  q.name = p.name ∧ q.version = p.version ∧ q.metaDeps = p.metaDeps ∧
  (∀ x ∈ p.dependencies, x ∈ q.dependencies) ∧
  (∀ x ∈ p.dependents, x ∈ q.dependents)

/-- How the registry state may evolve during `resolve`: the key sequence is
fixed and each stored plugin evolves pointwise. -/
def Evol : Reg → Reg → Prop :=
  List.Forall₂ (fun e f => f.1 = e.1 ∧ PluginEvol e.2 f.2)

/-! ### A spec-modelled semantic-versioning oracle -/

/-- Parse a run of decimal digits with accumulator. -/
def parseNatAux : List Char → Nat → Option Nat
  | [], acc => some acc
  | c :: rest, acc =>
    if c.isDigit then parseNatAux rest (acc * 10 + (c.toNat - 48)) else none

/-- Parse a non-empty run of decimal digits. -/
def parseNatL (l : List Char) : Option Nat :=
  if l.isEmpty then none else parseNatAux l 0

/-- Split a character list on the dot separator. -/
def splitDots : List Char → List (List Char)
  | [] => [[]]
  | c :: rest =>
    let r := splitDots rest
    if c = '.' then [] :: r
    else
      match r with
      | [] => [[c]]
      | h :: t => (c :: h) :: t

/-- Parse a `MAJOR.MINOR.PATCH` semantic version. -/
def parseSemver (s : String) : Option (Nat × Nat × Nat) :=
  match splitDots s.toList with
  | [ma, mi, pa] =>
    match parseNatL ma, parseNatL mi, parseNatL pa with
    | some a, some b, some c => some (a, b, c)
    | _, _, _ => none
  | _ => none

/-- Lexicographic order on parsed versions. -/
def verLe (v w : Nat × Nat × Nat) : Bool :=
  if v.1 ≠ w.1 then decide (v.1 < w.1)
  else if v.2.1 ≠ w.2.1 then decide (v.2.1 < w.2.1)
  else decide (v.2.2 ≤ w.2.2)

/-- SemVer caret range: at least the base version, no left-most non-zero
component bump. -/
def caretOK (base v : Nat × Nat × Nat) : Bool :=
  verLe base v &&
    (if 0 < base.1 then decide (v.1 = base.1)
     else if 0 < base.2.1 then decide (v.1 = 0 ∧ v.2.1 = base.2.1)
     else decide (v = base))

/-- SemVer tilde range: at least the base version, same major and minor. -/
def tildeOK (base v : Nat × Nat × Nat) : Bool :=
  verLe base v && decide (v.1 = base.1 ∧ v.2.1 = base.2.1)

/-- Modelled from the spec: `semver.satisfies(version, range)` of the
external `semver` package (not part of this repository's sources).  Spec
section 4.4 requires "standard semantic-versioning range semantics
(caret/tilde/comparator operators, as per the SemVer 2.0 specification)";
this model covers exact `X.Y.Z`, caret `^X.Y.Z` and tilde `~X.Y.Z` ranges,
the forms the spec's scenarios exercise.  It instantiates the `sat` oracle
of `Registry.resolve` in concrete witnesses. -/
def semverSatisfies (version range : String) : Bool :=
  match parseSemver version with
  | none => false
  | some v =>
    match range.toList with
    | '^' :: rest =>
      match parseSemver (String.mk rest) with
      | some b => caretOK b v
      | none => false
    | '~' :: rest =>
      match parseSemver (String.mk rest) with
      | some b => tildeOK b v
      | none => false
    | _ =>
      match parseSemver range with
      | some b => decide (v = b)
      | none => false

/-- Modelled from the spec: the `Plugin` class constructor (the file
`Plugin.js` is required by the registry but is not among the sources).
Per spec section 4.3 a plugin is "constructed from `(name, metadata)`";
`name` must be a non-empty string and `metadata.version` must be a valid
semantic version, otherwise construction fails with `InvalidVersionError`
(errors modelled, as everywhere in this file, by their message).  On
success, the resolved link objects `dependencies`/`dependents` do not
exist yet on the fresh plugin (modelled as empty). -/
def mkPlugin (n : String) (md : PMeta) : Except String SPlugin :=
  if n.isEmpty then
    Except.error "Plugin name must be a non-empty string."
  else
    match parseSemver md.version with
    | none => Except.error (s!"InvalidVersionError: {md.version}")
    | some _ => Except.ok ⟨n, md.version, md.dependencies, [], []⟩

/-- Lines 364-370, `Registry.plugin(name, metadata)`, in the branch where
`metadata` is present: `return this.set(name, new Plugin(name, metadata))`.
An exception thrown by the `Plugin` constructor propagates to the caller
and `set` is never reached — nothing is stored or overwritten. -/
def Registry.plugin (st : Reg) (n : String) (md : PMeta) :
    Except String (Reg × SPlugin) :=
  match mkPlugin n md with
  | Except.error e => Except.error e
  | Except.ok p => Except.ok (Registry.set st n p)

/-! ### Substring occurrence (used to state that an error message does not
name a plugin) -/

/-- `startsWithL pat l`: `pat` is an initial segment of `l`. -/
def startsWithL : List Char → List Char → Bool
  | [], _ => true
  | _ :: _, [] => false
  | a :: as, b :: bs => a == b && startsWithL as bs

/-- `containsL pat l`: `pat` occurs contiguously somewhere in `l`. -/
def containsL (pat : List Char) : List Char → Bool
  | [] => pat.isEmpty
  | c :: rest => startsWithL pat (c :: rest) || containsL pat rest

/-! ### Concrete plugin values used by witnesses and counterexamples -/

/-- Dependency-free plugin `a`. -/
def pA0 : SPlugin := ⟨"a", "1.0.0", [], [], []⟩

/-- Dependency-free plugin `b`. -/
def pB0 : SPlugin := ⟨"b", "1.0.0", [], [], []⟩

/-- Dependency-free plugin `c`. -/
def pC0 : SPlugin := ⟨"c", "1.0.0", [], [], []⟩

/-- Plugin `A` of the cyclic pair: depends on `B` (links as left by a
hypothetical resolve of the cycle). -/
def pACyc : SPlugin := ⟨"A", "1.0.0", [("B", "^1.0.0")], ["B"], ["B"]⟩

/-- Plugin `B` of the cyclic pair: depends on `A`. -/
def pBCyc : SPlugin := ⟨"B", "1.0.0", [("A", "^1.0.0")], ["A"], ["A"]⟩

/-- Resolved chain, link state after `resolve`: `a` with no dependencies. -/
def qChainA : SPlugin := ⟨"a", "1.0.0", [], [], ["b"]⟩

/-- Resolved chain: `b` depends on `a`. -/
def qChainB : SPlugin := ⟨"b", "1.0.0", [("a", "^1.0.0")], ["a"], ["c"]⟩

/-- Resolved chain: `c` depends on `b`. -/
def qChainC : SPlugin := ⟨"c", "1.0.0", [("b", "^1.0.0")], ["b"], []⟩

/-- Registry with the single plugin `alpha` depending on the unregistered
name `ghost`. -/
def regGhost : Reg :=
  [("alpha", ⟨"alpha", "1.0.0", [("ghost", "^1.0.0")], [], []⟩)]

/-- Registry where `b` is at version `1.0.0` and `a` requires `^2.0.0` of
`b`. -/
def regVer : Reg :=
  [("b", ⟨"b", "1.0.0", [], [], []⟩),
   ("a", ⟨"a", "1.0.0", [("b", "^2.0.0")], [], []⟩)]

/-- Plugin `b` of the satisfiable pair. -/
def pOKb : SPlugin := ⟨"b", "1.0.0", [], [], []⟩

/-- Plugin `a` of the satisfiable pair: requires `^1.0.0` of `b`. -/
def pOKa : SPlugin := ⟨"a", "1.0.0", [("b", "^1.0.0")], [], []⟩

/-- Registry where `b` is at version `1.0.0` and `a` requires `^1.0.0` of
`b` (a satisfiable dependency). -/
def regOK : Reg := [("b", pOKb), ("a", pOKa)]

/-! ## Theorems -/

/-! ### Unfolding equations for the recursive definitions -/

lemma passFE_nil (sat : SPlugin → List SPlugin → Bool) (target : List SPlugin) :
    passFE sat target [] = (target, []) := rfl

lemma passFE_one_pos (sat : SPlugin → List SPlugin → Bool) (p : SPlugin)
    (target : List SPlugin) (hsat : sat p target = true) :
    passFE sat target [p] = (target ++ [p], []) := by
  rw [passFE.eq_def]
  simp only [hsat, if_true]

lemma passFE_cons_pos (sat : SPlugin → List SPlugin → Bool) (p q : SPlugin)
    (rest2 target : List SPlugin) (hsat : sat p target = true) :
    passFE sat target (p :: q :: rest2) =
      ((passFE sat (target ++ [p]) rest2).1,
        q :: (passFE sat (target ++ [p]) rest2).2) := by
  rw [passFE.eq_def]
  simp only [hsat, if_true]

lemma passFE_cons_neg (sat : SPlugin → List SPlugin → Bool) (p : SPlugin)
    (rest target : List SPlugin) (hsat : ¬ sat p target = true) :
    passFE sat target (p :: rest) =
      ((passFE sat target rest).1, p :: (passFE sat target rest).2) := by
  rw [passFE.eq_def]
  simp only [eq_false hsat, Bool.false_eq_true, if_false]

lemma satisfy_succ (n : Nat) (t s : List SPlugin) :
    Registry.satisfy (n + 1) t s =
      if (passFE isSatisfied t s).2.isEmpty then some (passFE isSatisfied t s).1
      else Registry.satisfy n (passFE isSatisfied t s).1 (passFE isSatisfied t s).2 :=
  rfl

/-! ### Pass-level lemmas for `prioritize`/`satisfy` -/

lemma passFE_append_perm (sat : SPlugin → List SPlugin → Bool) :
    ∀ (n : Nat) (source target : List SPlugin), source.length ≤ n →
      ((passFE sat target source).1 ++ (passFE sat target source).2).Perm
        (target ++ source) := by
  intro n
  induction n with
  | zero =>
    intro source target h
    have hs : source = [] := List.length_eq_zero.mp (Nat.le_zero.mp h)
    subst hs
    simp [passFE_nil]
  | succ n ih =>
    intro source target h
    cases source with
    | nil => simp [passFE_nil]
    | cons p rest =>
      simp only [List.length_cons, Nat.succ_le_succ_iff] at h
      by_cases hsat : sat p target
      · cases rest with
        | nil => simp [passFE_one_pos sat p target hsat]
        | cons q rest2 =>
          have h2 : rest2.length ≤ n := by
            simp only [List.length_cons] at h
            omega
          have ihr := ih rest2 (target ++ [p]) h2
          rw [passFE_cons_pos sat p q rest2 target hsat]
          have s1 : ((passFE sat (target ++ [p]) rest2).1 ++
              q :: (passFE sat (target ++ [p]) rest2).2).Perm
              (q :: ((passFE sat (target ++ [p]) rest2).1 ++
                (passFE sat (target ++ [p]) rest2).2)) := List.perm_middle
          have s2 : (q :: ((passFE sat (target ++ [p]) rest2).1 ++
              (passFE sat (target ++ [p]) rest2).2)).Perm
              (q :: ((target ++ [p]) ++ rest2)) := ihr.cons q
          have s3 : (target ++ p :: q :: rest2).Perm
              (q :: ((target ++ [p]) ++ rest2)) := by
            have he : target ++ p :: q :: rest2 = (target ++ [p]) ++ q :: rest2 := by
              simp
            rw [he]
            exact List.perm_middle
          exact (s1.trans s2).trans s3.symm
      · have ihr := ih rest target h
        rw [passFE_cons_neg sat p rest target hsat]
        have s1 : ((passFE sat target rest).1 ++
            p :: (passFE sat target rest).2).Perm
            (p :: ((passFE sat target rest).1 ++ (passFE sat target rest).2)) :=
          List.perm_middle
        have s2 := ihr.cons p
        have s3 : (target ++ p :: rest).Perm (p :: (target ++ rest)) :=
          List.perm_middle
        exact (s1.trans s2).trans s3.symm

lemma passFE_perm (sat : SPlugin → List SPlugin → Bool)
    (target source : List SPlugin) :
    ((passFE sat target source).1 ++ (passFE sat target source).2).Perm
      (target ++ source) :=
  passFE_append_perm sat source.length source target le_rfl

lemma passFE_split (sat : SPlugin → List SPlugin → Bool) :
    ∀ (n : Nat) (source target : List SPlugin), source.length ≤ n →
      ∃ moved, (passFE sat target source).1 = target ++ moved ∧
        moved.Sublist source ∧ (passFE sat target source).2.Sublist source := by
  intro n
  induction n with
  | zero =>
    intro source target h
    have hs : source = [] := List.length_eq_zero.mp (Nat.le_zero.mp h)
    subst hs
    exact ⟨[], by simp [passFE_nil], List.nil_sublist _, by simp [passFE_nil]⟩
  | succ n ih =>
    intro source target h
    cases source with
    | nil => exact ⟨[], by simp [passFE_nil], List.nil_sublist _, by simp [passFE_nil]⟩
    | cons p rest =>
      simp only [List.length_cons, Nat.succ_le_succ_iff] at h
      by_cases hsat : sat p target
      · cases rest with
        | nil =>
          refine ⟨[p], by simp [passFE_one_pos sat p target hsat], ?_,
            by simp [passFE_one_pos sat p target hsat]⟩
          exact List.Sublist.refl [p]
        | cons q rest2 =>
          have h2 : rest2.length ≤ n := by
            simp only [List.length_cons] at h
            omega
          obtain ⟨moved, hm1, hm2, hm3⟩ := ih rest2 (target ++ [p]) h2
          refine ⟨p :: moved, ?_, ?_, ?_⟩
          · rw [passFE_cons_pos sat p q rest2 target hsat]
            simp only [hm1]
            simp
          · exact (hm2.cons q).cons₂ p
          · rw [passFE_cons_pos sat p q rest2 target hsat]
            exact (hm3.cons₂ q).cons p
      · obtain ⟨moved, hm1, hm2, hm3⟩ := ih rest target h
        refine ⟨moved, ?_, hm2.cons p, ?_⟩
        · rw [passFE_cons_neg sat p rest target hsat]
          exact hm1
        · rw [passFE_cons_neg sat p rest target hsat]
          exact hm3.cons₂ p

lemma passFE_snd_sublist (sat : SPlugin → List SPlugin → Bool)
    (target source : List SPlugin) :
    (passFE sat target source).2.Sublist source :=
  (passFE_split sat source.length source target le_rfl).choose_spec.2.2

lemma passFE_snd_length_le (sat : SPlugin → List SPlugin → Bool)
    (target source : List SPlugin) :
    (passFE sat target source).2.length ≤ source.length :=
  (passFE_snd_sublist sat target source).length_le

lemma isSatisfied_iff (p : SPlugin) (t : List SPlugin) :
    isSatisfied p t = true ↔ ∀ d ∈ p.dependencies, d ∈ t.map SPlugin.name := by
  simp [isSatisfied, List.all_eq_true, List.any_eq_true, List.mem_map]

lemma TopoList_append_elem :
    ∀ (t : List SPlugin) (seen : List String) (p : SPlugin), TopoList seen t →
      (∀ d ∈ p.dependencies, d ∈ seen ∨ d ∈ t.map SPlugin.name) →
      TopoList seen (t ++ [p]) := by
  intro t
  induction t with
  | nil =>
    intro seen p _ hdep
    refine ⟨?_, trivial⟩
    intro d hd
    rcases hdep d hd with h | h
    · exact h
    · simp at h
  | cons a t2 ih =>
    intro seen p ht hdep
    obtain ⟨h1, h2⟩ := ht
    refine ⟨h1, ih (seen ++ [a.name]) p h2 ?_⟩
    intro d hd
    rcases hdep d hd with hs | hm
    · left
      simp [hs]
    · simp only [List.map_cons, List.mem_cons] at hm
      rcases hm with he | hm
      · left
        simp [he]
      · right
        exact hm

lemma TopoList_index :
    ∀ (l : List SPlugin) (seen : List String), TopoList seen l →
      ∀ i (hi : i < l.length), ∀ d ∈ (l.get ⟨i, hi⟩).dependencies,
        d ∈ seen ∨ ∃ j, ∃ hj : j < l.length, j < i ∧ (l.get ⟨j, hj⟩).name = d := by
  intro l
  induction l with
  | nil =>
    intro seen _ i hi
    exact absurd hi (by simp)
  | cons p rest ih =>
    intro seen ht i hi d hd
    obtain ⟨h1, h2⟩ := ht
    cases i with
    | zero =>
      left
      exact h1 d (by simpa using hd)
    | succ i =>
      have hi2 : i < rest.length := by simpa using hi
      have hd2 : d ∈ (rest.get ⟨i, hi2⟩).dependencies := by simpa using hd
      rcases ih (seen ++ [p.name]) h2 i hi2 d hd2 with hs | ⟨j, hj, hji, hname⟩
      · rcases List.mem_append.mp hs with h | h
        · left
          exact h
        · right
          refine ⟨0, by simp, Nat.succ_pos i, ?_⟩
          simp only [List.mem_singleton] at h
          simpa using h.symm
      · right
        refine ⟨j + 1, by simpa using Nat.succ_lt_succ hj, Nat.succ_lt_succ hji, ?_⟩
        simpa using hname

lemma passFE_topo (sat : SPlugin → List SPlugin → Bool)
    (hsat : ∀ p t, sat p t = true → isSatisfied p t = true) :
    ∀ (n : Nat) (source target : List SPlugin), source.length ≤ n →
      TopoList [] target → TopoList [] (passFE sat target source).1 := by
  intro n
  induction n with
  | zero =>
    intro source target h ht
    have hs : source = [] := List.length_eq_zero.mp (Nat.le_zero.mp h)
    subst hs
    simpa [passFE_nil] using ht
  | succ n ih =>
    intro source target h ht
    cases source with
    | nil => simpa [passFE_nil] using ht
    | cons p rest =>
      simp only [List.length_cons, Nat.succ_le_succ_iff] at h
      by_cases hs : sat p target
      · have hdep : ∀ d ∈ p.dependencies, d ∈ ([] : List String) ∨
            d ∈ target.map SPlugin.name := by
          intro d hd
          exact Or.inr ((isSatisfied_iff p target).mp (hsat p target hs) d hd)
        have htp : TopoList [] (target ++ [p]) :=
          TopoList_append_elem target [] p ht hdep
        cases rest with
        | nil =>
          rw [passFE_one_pos sat p target hs]
          exact htp
        | cons q rest2 =>
          have h2 : rest2.length ≤ n := by
            simp only [List.length_cons] at h
            omega
          rw [passFE_cons_pos sat p q rest2 target hs]
          exact ih rest2 (target ++ [p]) h2 htp
      · rw [passFE_cons_neg sat p rest target hs]
        exact ih rest target h ht

lemma satisfy_topo :
    ∀ (fuel : Nat) (t s res : List SPlugin), TopoList [] t →
      Registry.satisfy fuel t s = some res → TopoList [] res := by
  intro fuel
  induction fuel with
  | zero =>
    intro t s res _ h
    exact absurd h (by simp [Registry.satisfy])
  | succ n ih =>
    intro t s res ht h
    rw [satisfy_succ] at h
    have h1 : TopoList [] (passFE isSatisfied t s).1 :=
      passFE_topo isSatisfied (fun _ _ hp => hp) s.length s t le_rfl ht
    by_cases he : (passFE isSatisfied t s).2.isEmpty
    · rw [if_pos he] at h
      cases h
      exact h1
    · rw [if_neg he] at h
      exact ih _ _ _ h1 h

lemma satisfy_perm :
    ∀ (fuel : Nat) (t s res : List SPlugin),
      Registry.satisfy fuel t s = some res → res.Perm (t ++ s) := by
  intro fuel
  induction fuel with
  | zero =>
    intro t s res h
    exact absurd h (by simp [Registry.satisfy])
  | succ n ih =>
    intro t s res h
    rw [satisfy_succ] at h
    by_cases he : (passFE isSatisfied t s).2.isEmpty
    · rw [if_pos he] at h
      cases h
      have h2 : (passFE isSatisfied t s).2 = [] := List.isEmpty_iff.mp he
      have hperm := passFE_perm isSatisfied t s
      rw [h2] at hperm
      simpa using hperm
    · rw [if_neg he] at h
      exact (ih _ _ _ h).trans (passFE_perm isSatisfied t s)

lemma list_exists_min (rank : String → Nat) :
    ∀ (s : List SPlugin), s ≠ [] →
      ∃ m ∈ s, ∀ p ∈ s, rank m.name ≤ rank p.name := by
  intro s
  induction s with
  | nil =>
    intro h
    exact absurd rfl h
  | cons a t ih =>
    intro _
    cases t with
    | nil =>
      refine ⟨a, by simp, ?_⟩
      intro p hp
      simp only [List.mem_singleton] at hp
      subst hp
      exact le_rfl
    | cons b u =>
      obtain ⟨m, hm, hmin⟩ := ih (by simp)
      by_cases hc : rank a.name ≤ rank m.name
      · refine ⟨a, by simp, ?_⟩
        intro p hp
        rcases List.mem_cons.mp hp with rfl | hp
        · exact le_rfl
        · exact le_trans hc (hmin p hp)
      · refine ⟨m, List.mem_cons_of_mem a hm, ?_⟩
        intro p hp
        rcases List.mem_cons.mp hp with rfl | hp
        · exact le_of_not_le hc
        · exact hmin p hp

lemma exists_eligible (rank : String → Nat) (t s : List SPlugin) (hne : s ≠ [])
    (hclosed : ∀ p ∈ s, ∀ d ∈ p.dependencies,
      d ∈ t.map SPlugin.name ∨ d ∈ s.map SPlugin.name)
    (hrank : ∀ p ∈ s, ∀ d ∈ p.dependencies, rank d < rank p.name) :
    ∃ m ∈ s, isSatisfied m t = true := by
  obtain ⟨m, hm, hmin⟩ := list_exists_min rank s hne
  refine ⟨m, hm, (isSatisfied_iff m t).mpr ?_⟩
  intro d hd
  rcases hclosed m hm d hd with h | h
  · exact h
  · exfalso
    obtain ⟨p, hp, hpname⟩ := List.mem_map.mp h
    have h1 := hrank m hm d hd
    have h2 := hmin p hp
    rw [hpname] at h2
    omega

lemma passFE_progress :
    ∀ (n : Nat) (source target : List SPlugin), source.length ≤ n →
      (∃ m ∈ source, isSatisfied m target = true) →
      (passFE isSatisfied target source).2.length < source.length := by
  intro n
  induction n with
  | zero =>
    intro source target h hex
    have hs : source = [] := List.length_eq_zero.mp (Nat.le_zero.mp h)
    subst hs
    obtain ⟨m, hm, _⟩ := hex
    simp at hm
  | succ n ih =>
    intro source target h hex
    cases source with
    | nil =>
      obtain ⟨m, hm, _⟩ := hex
      simp at hm
    | cons p rest =>
      simp only [List.length_cons, Nat.succ_le_succ_iff] at h
      by_cases hs : isSatisfied p target
      · cases rest with
        | nil =>
          rw [passFE_one_pos isSatisfied p target hs]
          simp
        | cons q rest2 =>
          rw [passFE_cons_pos isSatisfied p q rest2 target hs]
          have hle := passFE_snd_length_le isSatisfied (target ++ [p]) rest2
          simp only [List.length_cons]
          omega
      · obtain ⟨m, hm, hms⟩ := hex
        have hmp : m ≠ p := fun he => hs (he ▸ hms)
        have hm2 : m ∈ rest := by
          rcases List.mem_cons.mp hm with h1 | h1
          · exact absurd h1 hmp
          · exact h1
        rw [passFE_cons_neg isSatisfied p rest target hs]
        have hlt := ih rest target h ⟨m, hm2, hms⟩
        simp only [List.length_cons]
        omega

lemma satisfy_total (rank : String → Nat) :
    ∀ (n : Nat) (t s : List SPlugin), s.length ≤ n →
      (∀ p ∈ s, ∀ d ∈ p.dependencies,
        d ∈ t.map SPlugin.name ∨ d ∈ s.map SPlugin.name) →
      (∀ p ∈ s, ∀ d ∈ p.dependencies, rank d < rank p.name) →
      ∃ res, Registry.satisfy (n + 1) t s = some res := by
  intro n
  induction n with
  | zero =>
    intro t s hlen _ _
    have hs : s = [] := List.length_eq_zero.mp (Nat.le_zero.mp hlen)
    subst hs
    exact ⟨t, by rw [satisfy_succ]; simp [passFE_nil]⟩
  | succ n ih =>
    intro t s hlen hclosed hrank
    rw [satisfy_succ]
    by_cases he : (passFE isSatisfied t s).2.isEmpty
    · exact ⟨_, by rw [if_pos he]⟩
    · rw [if_neg he]
      have hsne : s ≠ [] := by
        intro h
        subst h
        simp [passFE_nil] at he
      have hex := exists_eligible rank t s hsne hclosed hrank
      have hprog := passFE_progress s.length s t le_rfl hex
      have hlen2 : (passFE isSatisfied t s).2.length ≤ n := by omega
      have hsub := passFE_snd_sublist isSatisfied t s
      have hperm := (passFE_perm isSatisfied t s).map SPlugin.name
      apply ih _ _ hlen2
      · intro p hp d hd
        have hps : p ∈ s := hsub.subset hp
        have hmem : d ∈ (t ++ s).map SPlugin.name := by
          rcases hclosed p hps d hd with h1 | h1 <;> simp [h1]
        have h2 : d ∈ ((passFE isSatisfied t s).1 ++
            (passFE isSatisfied t s).2).map SPlugin.name :=
          hperm.mem_iff.mpr hmem
        simpa using h2
      · intro p hp d hd
        exact hrank p (hsub.subset hp) d hd

lemma prioritize_def (plugins : List SPlugin) (fuel : Nat) :
    Registry.prioritize plugins fuel =
      Registry.satisfy fuel
        (passFE (fun p _ => p.dependencies.isEmpty) [] plugins).1
        (passFE (fun p _ => p.dependencies.isEmpty) [] plugins).2 := rfl

/-- C1: for every registered plugin set whose resolved dependency links all
point at registered plugins (what a successful `resolve()` guarantees) and
whose dependency graph is acyclic (witnessed by a rank function, which for
finite graphs is equivalent to acyclicity), `prioritize()` terminates within
`|plugins| + 1` rounds of `satisfy` and returns an order in which every
linked dependency of every plugin occurs at a strictly earlier index. -/
theorem C1_prioritize_topological_order (plugins : List SPlugin)
    (rank : String → Nat)
    (hclosed : ∀ p ∈ plugins, ∀ d ∈ p.dependencies,
      d ∈ plugins.map SPlugin.name)
    (hrank : ∀ p ∈ plugins, ∀ d ∈ p.dependencies, rank d < rank p.name) :
    ∃ res, Registry.prioritize plugins (plugins.length + 1) = some res ∧
      ∀ i (hi : i < res.length), ∀ d ∈ (res.get ⟨i, hi⟩).dependencies,
        ∃ j, ∃ hj : j < res.length, j < i ∧ (res.get ⟨j, hj⟩).name = d := by
  have hseedsat : ∀ p t, (fun (p : SPlugin) (_ : List SPlugin) =>
      p.dependencies.isEmpty) p t = true → isSatisfied p t = true := by
    intro p t hp
    have hd : p.dependencies = [] := List.isEmpty_iff.mp hp
    simp [isSatisfied, hd]
  have hlen : (passFE (fun p _ => p.dependencies.isEmpty) [] plugins).2.length ≤
      plugins.length :=
    passFE_snd_length_le _ [] plugins
  have hsub := passFE_snd_sublist (fun p _ => p.dependencies.isEmpty) [] plugins
  have hperm :=
    (passFE_perm (fun p _ => p.dependencies.isEmpty) [] plugins).map SPlugin.name
  have hclosed2 : ∀ p ∈ (passFE (fun p _ => p.dependencies.isEmpty) [] plugins).2,
      ∀ d ∈ p.dependencies,
        d ∈ (passFE (fun p _ => p.dependencies.isEmpty) [] plugins).1.map SPlugin.name ∨
        d ∈ (passFE (fun p _ => p.dependencies.isEmpty) [] plugins).2.map SPlugin.name := by
    intro p hp d hd
    have hmem : d ∈ (([] : List SPlugin) ++ plugins).map SPlugin.name := by
      simpa using hclosed p (hsub.subset hp) d hd
    have h2 := hperm.mem_iff.mpr hmem
    simpa using h2
  have hrank2 : ∀ p ∈ (passFE (fun p _ => p.dependencies.isEmpty) [] plugins).2,
      ∀ d ∈ p.dependencies, rank d < rank p.name := by
    intro p hp d hd
    exact hrank p (hsub.subset hp) d hd
  obtain ⟨res, hres⟩ := satisfy_total rank plugins.length
    (passFE (fun p _ => p.dependencies.isEmpty) [] plugins).1
    (passFE (fun p _ => p.dependencies.isEmpty) [] plugins).2
    hlen hclosed2 hrank2
  have htopo1 : TopoList []
      (passFE (fun p _ => p.dependencies.isEmpty) [] plugins).1 :=
    passFE_topo _ hseedsat plugins.length plugins [] le_rfl trivial
  have htres : TopoList [] res := satisfy_topo _ _ _ _ htopo1 hres
  refine ⟨res, by rw [prioritize_def]; exact hres, ?_⟩
  intro i hi d hd
  rcases TopoList_index res [] htres i hi d hd with h | h
  · simp at h
  · exact h

/-- C1 witness: the resolved chain a ← b ← c is ordered with every
dependency before its dependent. -/
theorem C1_witness :
    ∃ res, Registry.prioritize [qChainA, qChainB, qChainC]
        ([qChainA, qChainB, qChainC].length + 1) = some res ∧
      ∀ i (hi : i < res.length), ∀ d ∈ (res.get ⟨i, hi⟩).dependencies,
        ∃ j, ∃ hj : j < res.length, j < i ∧ (res.get ⟨j, hj⟩).name = d :=
  C1_prioritize_topological_order [qChainA, qChainB, qChainC]
    (fun n => if n = "a" then 0 else if n = "b" then 1 else 2)
    (by decide) (by decide)

lemma satisfy_cycle_none :
    ∀ fuel, Registry.satisfy fuel [] [pACyc, pBCyc] = none := by
  intro fuel
  induction fuel with
  | zero => rfl
  | succ n ih =>
    rw [satisfy_succ]
    have hpass : passFE isSatisfied [] [pACyc, pBCyc] = ([], [pACyc, pBCyc]) := by
      decide
    rw [hpass]
    simpa using ih

/-- C2: on the cyclic pair A→B→A, every recursion budget is exhausted:
`prioritize` never returns, for any fuel.  The claim (and the spec) demand
termination with `CyclicDependencyError`; the code of `satisfy`
(lines 292-312) recurses on identical arguments forever instead — no pass
moves any plugin, and the recursion re-enters with the same lists — so the
code diverges from the specified behaviour (it would overflow the stack
rather than throw the specified error). -/
theorem C2_cycle_recurses_unboundedly :
    ∀ fuel, Registry.prioritize [pACyc, pBCyc] fuel = none := by
  intro fuel
  rw [prioritize_def]
  have hseed : passFE (fun p _ => p.dependencies.isEmpty) [] [pACyc, pBCyc]
      = ([], [pACyc, pBCyc]) := by decide
  rw [hseed]
  exact satisfy_cycle_none fuel

/-- C3 counterexample: three dependency-free plugins registered in order
`a, b, c` are all simultaneously eligible in the seeding pass, yet
`prioritize` yields `[a, c, b]` — the splice-during-forEach skips `b`,
which is deferred to the `satisfy` pass, so the claimed registration order
`[a, b, c]` is not produced. -/
theorem C3_counterexample :
    Registry.prioritize [pA0, pB0, pC0] 4 = some [pA0, pC0, pB0] ∧
    (∀ p ∈ [pA0, pB0, pC0], p.dependencies = []) ∧
    [pA0, pC0, pB0] ≠ [pA0, pB0, pC0] :=
  ⟨by decide, by decide, by decide⟩

/-- C3 as amended: within one forEach/splice pass of `prioritize()` or
`satisfy()`, the plugins that are moved preserve their original relative
order (the moved block is a subsequence of the scanned list, as is the
leftover list); but simultaneously eligible plugins are not necessarily
all moved in the same pass — the in-place removal skips the element
following each moved plugin and defers it — so the overall order need not
preserve registration order among simultaneously eligible plugins. -/
theorem C3_pass_preserves_relative_order (sat : SPlugin → List SPlugin → Bool)
    (target source : List SPlugin) :
    ∃ moved, (passFE sat target source).1 = target ++ moved ∧
      moved.Sublist source ∧ (passFE sat target source).2.Sublist source :=
  passFE_split sat source.length source target le_rfl

/-- C4 counterexample: deleting the absent name `"x"` from a registry
holding only `a` leaves the map unchanged but returns `true`, not `false`
(JS `delete` evaluates to `true` on an absent property). -/
theorem C4_counterexample :
    ¬ (Registry.del [("a", pA0)] "x").1 = false ∧
    (Registry.del [("a", pA0)] "x").2 = [("a", pA0)] :=
  ⟨by decide, by decide⟩

/-- C4 as amended: for every registry state and every name absent from the
plugin map, `del` leaves the map unchanged and returns `true` (the JS
`delete` operator yields `true` for an absent configurable property, not
`false` as the claim states). -/
theorem C4_del_absent (st : Reg) (n : String) (h : ∀ e ∈ st, e.1 ≠ n) :
    Registry.del st n = (true, st) := by
  unfold Registry.del
  have hf : st.filter (fun e => e.1 ≠ n) = st := by
    apply List.filter_eq_self.mpr
    intro e he
    simpa using h e he
  rw [hf]

/-- C4 amended witness at a concrete registry and name. -/
theorem C4_del_absent_witness :
    Registry.del [("a", pA0)] "ghost" = (true, [("a", pA0)]) :=
  C4_del_absent [("a", pA0)] "ghost" (by decide)

/-- C8: whenever `prioritize()` returns normally, the resulting
`prioritized` collection is a permutation of the registered plugin values
it was given (every registered plugin exactly once, nothing else).  Before
the pipeline has run the constructor (line 152) sets `prioritized` to an
empty collection, the trivial branch of the claim. -/
theorem C8_prioritized_is_permutation (plugins : List SPlugin) (fuel : Nat)
    (res : List SPlugin) (h : Registry.prioritize plugins fuel = some res) :
    res.Perm plugins := by
  rw [prioritize_def] at h
  have h1 := satisfy_perm fuel _ _ res h
  have h2 := passFE_perm (fun p _ => p.dependencies.isEmpty) [] plugins
  exact h1.trans (by simpa using h2)

/-- C8 witness: the concrete run on three dependency-free plugins returns a
permutation of the input. -/
theorem C8_witness : List.Perm [pA0, pC0, pB0] [pA0, pB0, pC0] :=
  C8_prioritized_is_permutation [pA0, pB0, pC0] 4 [pA0, pC0, pB0] (by decide)

/-! ### Lemmas about `resolve` -/

lemma pluginEvol_refl (p : SPlugin) : PluginEvol p p :=
  ⟨rfl, rfl, rfl, fun _ hx => hx, fun _ hx => hx⟩

lemma pluginEvol_trans {p q r : SPlugin} (h1 : PluginEvol p q)
    (h2 : PluginEvol q r) : PluginEvol p r :=
  ⟨h2.1.trans h1.1, h2.2.1.trans h1.2.1, h2.2.2.1.trans h1.2.2.1,
    fun x hx => h2.2.2.2.1 x (h1.2.2.2.1 x hx),
    fun x hx => h2.2.2.2.2 x (h1.2.2.2.2 x hx)⟩

lemma evol_refl (st : Reg) : Evol st st :=
  List.forall₂_same.mpr (fun e _ => ⟨rfl, pluginEvol_refl e.2⟩)

lemma evol_trans : ∀ {a b c : Reg}, Evol a b → Evol b c → Evol a c := by
  intro a b c h1
  induction h1 generalizing c with
  | nil =>
    intro h2
    cases h2
    exact List.Forall₂.nil
  | cons hab _ ih =>
    intro h2
    cases h2 with
    | cons hbc h2t =>
      exact List.Forall₂.cons
        ⟨hbc.1.trans hab.1, pluginEvol_trans hab.2 hbc.2⟩ (ih h2t)

lemma mem_oset_self (l : List String) (k : String) : k ∈ oset l k := by
  unfold oset
  by_cases h : k ∈ l
  · simp [h]
  · simp [h]

lemma mem_oset_of_mem {l : List String} {x : String} (k : String) (h : x ∈ l) :
    x ∈ oset l k := by
  unfold oset
  by_cases hk : k ∈ l <;> simp [hk, h]

lemma mem_oset_elim {l : List String} {x k : String} (h : x ∈ oset l k) :
    x ∈ l ∨ x = k := by
  unfold oset at h
  by_cases hk : k ∈ l
  · simp [hk] at h
    exact Or.inl h
  · simp [hk] at h
    exact h

lemma updP_evol (st : Reg) (k : String) (f : SPlugin → SPlugin)
    (hf : ∀ p, PluginEvol p (f p)) : Evol st (updP st k f) := by
  induction st with
  | nil => exact List.Forall₂.nil
  | cons e rest ih =>
    simp only [updP, List.map_cons]
    refine List.Forall₂.cons ?_ ih
    by_cases he : e.1 = k
    · simp only [he, if_true]
      exact ⟨by simp, hf e.2⟩
    · simp only [he, if_false]
      exact ⟨by simp, pluginEvol_refl e.2⟩

lemma evol_findP_some : ∀ {st st' : Reg}, Evol st st' → ∀ {k : String}
    {p : SPlugin}, findP st k = some p →
    ∃ q, findP st' k = some q ∧ PluginEvol p q := by
  intro st st' h
  induction h with
  | nil =>
    intro k p hp
    simp [findP] at hp
  | @cons e f l1 l2 hef _ ih =>
    intro k p hp
    by_cases hk : e.1 = k
    · simp only [findP, hk, if_true] at hp
      cases hp
      refine ⟨f.2, ?_, hef.2⟩
      simp [findP, hef.1, hk]
    · simp only [findP, hk, if_false] at hp
      obtain ⟨q, hq, hpe⟩ := ih hp
      refine ⟨q, ?_, hpe⟩
      rw [findP, hef.1, if_neg hk]
      exact hq

lemma evol_findP_some_rev : ∀ {st st' : Reg}, Evol st st' → ∀ {k : String}
    {q : SPlugin}, findP st' k = some q →
    ∃ p, findP st k = some p ∧ PluginEvol p q := by
  intro st st' h
  induction h with
  | nil =>
    intro k q hq
    simp [findP] at hq
  | @cons e f l1 l2 hef _ ih =>
    intro k q hq
    by_cases hk : e.1 = k
    · rw [findP, hef.1, if_pos hk] at hq
      cases hq
      refine ⟨e.2, ?_, hef.2⟩
      simp [findP, hk]
    · rw [findP, hef.1, if_neg hk] at hq
      obtain ⟨p, hp, hpe⟩ := ih hq
      refine ⟨p, ?_, hpe⟩
      rw [findP, if_neg hk]
      exact hp

lemma evol_findP_none : ∀ {st st' : Reg}, Evol st st' → ∀ {k : String},
    findP st k = none → findP st' k = none := by
  intro st st' h
  induction h with
  | nil =>
    intro k _
    rfl
  | @cons e f l1 l2 hef _ ih =>
    intro k hp
    by_cases hk : e.1 = k
    · simp [findP, hk] at hp
    · rw [findP, if_neg hk] at hp
      rw [findP, hef.1, if_neg hk]
      exact ih hp

lemma evol_findP_none_rev : ∀ {st st' : Reg}, Evol st st' → ∀ {k : String},
    findP st' k = none → findP st k = none := by
  intro st st' h
  induction h with
  | nil =>
    intro k _
    rfl
  | @cons e f l1 l2 hef _ ih =>
    intro k hp
    by_cases hk : e.1 = k
    · rw [findP, hef.1, if_pos hk] at hp
      cases hp
    · rw [findP, hef.1, if_neg hk] at hp
      rw [findP, if_neg hk]
      exact ih hp

lemma findP_mem : ∀ {st : Reg} {k : String} {p : SPlugin},
    findP st k = some p → (k, p) ∈ st := by
  intro st
  induction st with
  | nil =>
    intro k p h
    simp [findP] at h
  | cons e rest ih =>
    intro k p h
    by_cases hk : e.1 = k
    · rw [findP, if_pos hk] at h
      cases h
      subst hk
      exact List.mem_cons.mpr (Or.inl rfl)
    · rw [findP, if_neg hk] at h
      exact List.mem_cons_of_mem e (ih h)

lemma resolveStep_missing (sat : String → String → Bool) (st : Reg)
    (k pname : String) (e : String × String) (h : findP st e.1 = none) :
    resolveStep sat st k pname e =
      Except.error (s!"Dependency {e.1} missing.") := by
  simp [resolveStep, h]

lemma resolveStep_mismatch (sat : String → String → Bool) (st : Reg)
    (k pname : String) (e : String × String) (B : SPlugin)
    (hB : findP st e.1 = some B) (hv : sat B.version e.2 = false) :
    resolveStep sat st k pname e =
      Except.error (s!"{e.1} {B.version} does not satisfy {e.2}.") := by
  simp [resolveStep, hB, hv]

lemma resolveStep_ok_eq (sat : String → String → Bool) (st : Reg)
    (k pname : String) (e : String × String) (B : SPlugin)
    (hB : findP st e.1 = some B) (hv : sat B.version e.2 = true) :
    resolveStep sat st k pname e = Except.ok
      (updP (updP st e.1
        (fun b => { b with dependents := oset b.dependents pname })) k
        (fun a => { a with dependencies := oset a.dependencies e.1 })) := by
  simp [resolveStep, hB, hv]

lemma resolveStep_error_cases {sat : String → String → Bool} {st : Reg}
    {k pname : String} {e : String × String} {m : String}
    (h : resolveStep sat st k pname e = Except.error m) :
    (findP st e.1 = none ∧ m = s!"Dependency {e.1} missing.") ∨
    (∃ B, findP st e.1 = some B ∧ sat B.version e.2 = false ∧
      m = s!"{e.1} {B.version} does not satisfy {e.2}.") := by
  cases hB : findP st e.1 with
  | none =>
    rw [resolveStep_missing sat st k pname e hB] at h
    simp only [Except.error.injEq] at h
    exact Or.inl ⟨rfl, h.symm⟩
  | some B =>
    by_cases hv : sat B.version e.2 = true
    · rw [resolveStep_ok_eq sat st k pname e B hB hv] at h
      exact absurd h (by simp)
    · have hvf : sat B.version e.2 = false := by
        revert hv
        cases sat B.version e.2 <;> simp
      rw [resolveStep_mismatch sat st k pname e B hB hvf] at h
      simp only [Except.error.injEq] at h
      exact Or.inr ⟨B, rfl, hvf, h.symm⟩

lemma resolveStep_ok_elim {sat : String → String → Bool} {st : Reg}
    {k pname : String} {e : String × String} {st1 : Reg}
    (h : resolveStep sat st k pname e = Except.ok st1) :
    ∃ B, findP st e.1 = some B ∧ sat B.version e.2 = true ∧
      st1 = updP (updP st e.1
        (fun b => { b with dependents := oset b.dependents pname })) k
        (fun a => { a with dependencies := oset a.dependencies e.1 }) := by
  cases hB : findP st e.1 with
  | none =>
    rw [resolveStep_missing sat st k pname e hB] at h
    exact absurd h (by simp)
  | some B =>
    by_cases hv : sat B.version e.2 = true
    · rw [resolveStep_ok_eq sat st k pname e B hB hv] at h
      simp only [Except.ok.injEq] at h
      exact ⟨B, rfl, hv, h.symm⟩
    · have hvf : sat B.version e.2 = false := by
        revert hv
        cases sat B.version e.2 <;> simp
      rw [resolveStep_mismatch sat st k pname e B hB hvf] at h
      exact absurd h (by simp)

lemma resolveEntries_nil (sat : String → String → Bool) (k pname : String)
    (st : Reg) : resolveEntries sat k pname [] st = (none, st) := rfl

lemma resolveEntries_cons_err {sat : String → String → Bool} {st : Reg}
    {k pname : String} {e : String × String} {m : String}
    (rest : List (String × String))
    (h : resolveStep sat st k pname e = Except.error m) :
    resolveEntries sat k pname (e :: rest) st = (some m, st) := by
  simp [resolveEntries, h]

lemma resolveEntries_cons_ok {sat : String → String → Bool} {st st1 : Reg}
    {k pname : String} {e : String × String}
    (rest : List (String × String))
    (h : resolveStep sat st k pname e = Except.ok st1) :
    resolveEntries sat k pname (e :: rest) st =
      resolveEntries sat k pname rest st1 := by
  simp [resolveEntries, h]

lemma resolvePlugins_nil (sat : String → String → Bool) (st : Reg) :
    resolvePlugins sat [] st = (none, st) := rfl

lemma resolvePlugins_cons_err {sat : String → String → Bool} {st st1 : Reg}
    {pl : String × String × List (String × String)} {m : String}
    (rest : List (String × String × List (String × String)))
    (h : resolveEntries sat pl.1 pl.2.1 pl.2.2 st = (some m, st1)) :
    resolvePlugins sat (pl :: rest) st = (some m, st1) := by
  simp [resolvePlugins, h]

lemma resolvePlugins_cons_ok {sat : String → String → Bool} {st st1 : Reg}
    {pl : String × String × List (String × String)}
    (rest : List (String × String × List (String × String)))
    (h : resolveEntries sat pl.1 pl.2.1 pl.2.2 st = (none, st1)) :
    resolvePlugins sat (pl :: rest) st = resolvePlugins sat rest st1 := by
  simp [resolvePlugins, h]

lemma resolveStep_evol {sat : String → String → Bool} {st : Reg}
    {k pname : String} {e : String × String} {st1 : Reg}
    (h : resolveStep sat st k pname e = Except.ok st1) : Evol st st1 := by
  obtain ⟨B, _, _, rfl⟩ := resolveStep_ok_elim h
  have h1 : Evol st (updP st e.1
      (fun b => { b with dependents := oset b.dependents pname })) :=
    updP_evol st e.1 _
      (fun p => ⟨rfl, rfl, rfl, fun _ hx => hx,
        fun _ hx => mem_oset_of_mem pname hx⟩)
  have h2 : Evol (updP st e.1
      (fun b => { b with dependents := oset b.dependents pname }))
      (updP (updP st e.1
        (fun b => { b with dependents := oset b.dependents pname })) k
        (fun a => { a with dependencies := oset a.dependencies e.1 })) :=
    updP_evol _ k _
      (fun p => ⟨rfl, rfl, rfl, fun _ hx => mem_oset_of_mem e.1 hx,
        fun _ hx => hx⟩)
  exact evol_trans h1 h2

lemma resolveEntries_evol (sat : String → String → Bool) (k pname : String) :
    ∀ (entries : List (String × String)) (st : Reg),
      Evol st (resolveEntries sat k pname entries st).2 := by
  intro entries
  induction entries with
  | nil =>
    intro st
    rw [resolveEntries_nil]
    exact evol_refl st
  | cons e rest ih =>
    intro st
    cases hstep : resolveStep sat st k pname e with
    | error m =>
      rw [resolveEntries_cons_err rest hstep]
      exact evol_refl st
    | ok st1 =>
      rw [resolveEntries_cons_ok rest hstep]
      exact evol_trans (resolveStep_evol hstep) (ih st1)

lemma resolvePlugins_evol (sat : String → String → Bool) :
    ∀ (ps : List (String × String × List (String × String))) (st : Reg),
      Evol st (resolvePlugins sat ps st).2 := by
  intro ps
  induction ps with
  | nil =>
    intro st
    rw [resolvePlugins_nil]
    exact evol_refl st
  | cons pl rest ih =>
    intro st
    rcases hre : resolveEntries sat pl.1 pl.2.1 pl.2.2 st with ⟨o, st1⟩
    have h1 : Evol st st1 := by
      have he := resolveEntries_evol sat pl.1 pl.2.1 pl.2.2 st
      rw [hre] at he
      exact he
    cases o with
    | none =>
      rw [resolvePlugins_cons_ok rest hre]
      exact evol_trans h1 (ih st1)
    | some m =>
      rw [resolvePlugins_cons_err rest hre]
      exact h1

lemma updP_cons (e : String × SPlugin) (rest : Reg) (k : String)
    (f : SPlugin → SPlugin) :
    updP (e :: rest) k f =
      (if e.1 = k then (e.1, f e.2) else e) :: updP rest k f := rfl

lemma findP_updP_same (st : Reg) (k : String) (f : SPlugin → SPlugin) :
    findP (updP st k f) k = (findP st k).map f := by
  induction st with
  | nil => rfl
  | cons e rest ih =>
    have ih2 : findP (List.map
        (fun e => if e.1 = k then (e.1, f e.2) else e) rest) k =
        Option.map f (findP rest k) := by simpa [updP] using ih
    by_cases he : e.1 = k
    · simp [updP_cons, findP, he]
    · simp [updP_cons, findP, he, ih2]

lemma findP_updP_ne (st : Reg) (k : String) (f : SPlugin → SPlugin)
    (m : String) (h : m ≠ k) : findP (updP st k f) m = findP st m := by
  induction st with
  | nil => rfl
  | cons e rest ih =>
    have ih2 : findP (List.map
        (fun e => if e.1 = k then (e.1, f e.2) else e) rest) m =
        findP rest m := by simpa [updP] using ih
    by_cases hek : e.1 = k
    · have hkm : ¬ k = m := fun hh => h hh.symm
      simp [updP_cons, findP, hek, hkm, ih2]
    · by_cases hem : e.1 = m
      · simp [updP_cons, findP, hek, hem, h]
      · simp [updP_cons, findP, hek, hem, ih2]

lemma mem_updP {st : Reg} {k : String} {g : SPlugin → SPlugin}
    {f : String × SPlugin} (h : f ∈ updP st k g) :
    ∃ e ∈ st, f = e ∨ f = (e.1, g e.2) := by
  obtain ⟨e, he, hf⟩ := List.mem_map.mp h
  refine ⟨e, he, ?_⟩
  by_cases hek : e.1 = k
  · right
    rw [← hf]
    simp [hek]
  · left
    rw [← hf]
    simp [hek]

lemma resolveStep_adds_links {sat : String → String → Bool} {st : Reg}
    {k pname : String} {e : String × String} {st1 : Reg} {A : SPlugin}
    (h : resolveStep sat st k pname e = Except.ok st1)
    (hk : findP st k = some A) :
    (∃ A1, findP st1 k = some A1 ∧ e.1 ∈ A1.dependencies) ∧
    (∃ B1, findP st1 e.1 = some B1 ∧ pname ∈ B1.dependents) := by
  obtain ⟨B, hB, _, rfl⟩ := resolveStep_ok_elim h
  by_cases hke : k = e.1
  · subst hke
    have hs1 : findP (updP st e.1
        (fun b => { b with dependents := oset b.dependents pname })) e.1 =
        some { B with dependents := oset B.dependents pname } := by
      rw [findP_updP_same, hB]
      rfl
    have hs2 : findP (updP (updP st e.1
        (fun b => { b with dependents := oset b.dependents pname })) e.1
        (fun a => { a with dependencies := oset a.dependencies e.1 })) e.1 =
        some ⟨B.name, B.version, B.metaDeps, oset B.dependencies e.1,
          oset B.dependents pname⟩ := by
      rw [findP_updP_same, hs1]
      rfl
    exact ⟨⟨_, hs2, mem_oset_self _ _⟩, ⟨_, hs2, mem_oset_self _ _⟩⟩
  · have hne : e.1 ≠ k := fun hh => hke hh.symm
    have hs1k : findP (updP st e.1
        (fun b => { b with dependents := oset b.dependents pname })) k =
        some A := by
      rw [findP_updP_ne st e.1 _ k hke, hk]
    have hs1e : findP (updP st e.1
        (fun b => { b with dependents := oset b.dependents pname })) e.1 =
        some { B with dependents := oset B.dependents pname } := by
      rw [findP_updP_same, hB]
      rfl
    have hs2k : findP (updP (updP st e.1
        (fun b => { b with dependents := oset b.dependents pname })) k
        (fun a => { a with dependencies := oset a.dependencies e.1 })) k =
        some { A with dependencies := oset A.dependencies e.1 } := by
      rw [findP_updP_same, hs1k]
      rfl
    have hs2e : findP (updP (updP st e.1
        (fun b => { b with dependents := oset b.dependents pname })) k
        (fun a => { a with dependencies := oset a.dependencies e.1 })) e.1 =
        some { B with dependents := oset B.dependents pname } := by
      rw [findP_updP_ne _ k _ e.1 hne, hs1e]
    exact ⟨⟨_, hs2k, mem_oset_self _ _⟩, ⟨_, hs2e, mem_oset_self _ _⟩⟩

lemma findP_isSome_of_mem {st : Reg} {k : String}
    (h : k ∈ st.map Prod.fst) : ∃ A, findP st k = some A := by
  induction st with
  | nil => simp at h
  | cons e rest ih =>
    by_cases hek : e.1 = k
    · exact ⟨e.2, by rw [findP, if_pos hek]⟩
    · simp only [List.map_cons, List.mem_cons] at h
      rcases h with h | h
      · exact absurd h.symm hek
      · obtain ⟨A, hA⟩ := ih h
        exact ⟨A, by rw [findP, if_neg hek]; exact hA⟩

lemma resolveEntries_success_links (sat : String → String → Bool)
    (k pname : String) :
    ∀ (entries : List (String × String)) (st st' : Reg),
      resolveEntries sat k pname entries st = (none, st') →
      (∃ A, findP st k = some A) →
      ∀ e ∈ entries,
        (∃ A1, findP st' k = some A1 ∧ e.1 ∈ A1.dependencies) ∧
        (∃ B1, findP st' e.1 = some B1 ∧ pname ∈ B1.dependents) := by
  intro entries
  induction entries with
  | nil =>
    intro st st' _ _ e he
    simp at he
  | cons e0 rest ih =>
    intro st st' hres hk e he
    cases hstep : resolveStep sat st k pname e0 with
    | error m =>
      rw [resolveEntries_cons_err rest hstep] at hres
      simp at hres
    | ok st1 =>
      rw [resolveEntries_cons_ok rest hstep] at hres
      obtain ⟨A, hA⟩ := hk
      have hEvolRest : Evol st1 st' := by
        have hh := resolveEntries_evol sat k pname rest st1
        rw [hres] at hh
        exact hh
      rcases List.mem_cons.mp he with rfl | hrest
      · obtain ⟨⟨A1, hA1, hA1d⟩, ⟨B1, hB1, hB1d⟩⟩ :=
          resolveStep_adds_links hstep hA
        constructor
        · obtain ⟨A2, hA2, hAe⟩ := evol_findP_some hEvolRest hA1
          exact ⟨A2, hA2, hAe.2.2.2.1 _ hA1d⟩
        · obtain ⟨B2, hB2, hBe⟩ := evol_findP_some hEvolRest hB1
          exact ⟨B2, hB2, hBe.2.2.2.2 _ hB1d⟩
      · have hk1 : ∃ A1, findP st1 k = some A1 := by
          obtain ⟨A1, hA1, _⟩ := evol_findP_some (resolveStep_evol hstep) hA
          exact ⟨A1, hA1⟩
        exact ih st1 st' hres hk1 e hrest

lemma resolvePlugins_success_links (sat : String → String → Bool) :
    ∀ (ps : List (String × String × List (String × String))) (st st' : Reg),
      resolvePlugins sat ps st = (none, st') →
      ∀ pl ∈ ps, (∃ A, findP st pl.1 = some A) →
        ∀ e ∈ pl.2.2,
          (∃ A1, findP st' pl.1 = some A1 ∧ e.1 ∈ A1.dependencies) ∧
          (∃ B1, findP st' e.1 = some B1 ∧ pl.2.1 ∈ B1.dependents) := by
  intro ps
  induction ps with
  | nil =>
    intro st st' _ pl hpl
    simp at hpl
  | cons pl0 rest ih =>
    intro st st' hres pl hpl hk e he
    rcases hre : resolveEntries sat pl0.1 pl0.2.1 pl0.2.2 st with ⟨o, st1⟩
    cases o with
    | some m =>
      rw [resolvePlugins_cons_err rest hre] at hres
      simp at hres
    | none =>
      rw [resolvePlugins_cons_ok rest hre] at hres
      have hEvol1 : Evol st st1 := by
        have hh := resolveEntries_evol sat pl0.1 pl0.2.1 pl0.2.2 st
        rw [hre] at hh
        exact hh
      have hEvolRest : Evol st1 st' := by
        have hh := resolvePlugins_evol sat rest st1
        rw [hres] at hh
        exact hh
      rcases List.mem_cons.mp hpl with rfl | hrest
      · have hlinks :=
          resolveEntries_success_links sat pl.1 pl.2.1 pl.2.2 st st1 hre hk e he
        obtain ⟨⟨A1, hA1, hA1d⟩, ⟨B1, hB1, hB1d⟩⟩ := hlinks
        constructor
        · obtain ⟨A2, hA2, hAe⟩ := evol_findP_some hEvolRest hA1
          exact ⟨A2, hA2, hAe.2.2.2.1 _ hA1d⟩
        · obtain ⟨B2, hB2, hBe⟩ := evol_findP_some hEvolRest hB1
          exact ⟨B2, hB2, hBe.2.2.2.2 _ hB1d⟩
      · obtain ⟨A, hA⟩ := hk
        obtain ⟨A1, hA1, _⟩ := evol_findP_some hEvol1 hA
        exact ih st1 st' hres pl hrest ⟨A1, hA1⟩ e he

lemma resolveEntries_success_sat (sat : String → String → Bool)
    (k pname : String) :
    ∀ (entries : List (String × String)) (st st' : Reg),
      resolveEntries sat k pname entries st = (none, st') →
      ∀ e ∈ entries, ∃ stM B, Evol st stM ∧ findP stM e.1 = some B ∧
        sat B.version e.2 = true := by
  intro entries
  induction entries with
  | nil =>
    intro st st' _ e he
    simp at he
  | cons e0 rest ih =>
    intro st st' hres e he
    cases hstep : resolveStep sat st k pname e0 with
    | error m =>
      rw [resolveEntries_cons_err rest hstep] at hres
      simp at hres
    | ok st1 =>
      rw [resolveEntries_cons_ok rest hstep] at hres
      rcases List.mem_cons.mp he with rfl | hrest
      · obtain ⟨B, hB, hv, _⟩ := resolveStep_ok_elim hstep
        exact ⟨st, B, evol_refl st, hB, hv⟩
      · obtain ⟨stM, B, hEvol, hfind, hv⟩ := ih st1 st' hres e hrest
        exact ⟨stM, B, evol_trans (resolveStep_evol hstep) hEvol, hfind, hv⟩

lemma resolvePlugins_success_sat (sat : String → String → Bool) :
    ∀ (ps : List (String × String × List (String × String))) (st st' : Reg),
      resolvePlugins sat ps st = (none, st') →
      ∀ pl ∈ ps, ∀ e ∈ pl.2.2, ∃ stM B, Evol st stM ∧
        findP stM e.1 = some B ∧ sat B.version e.2 = true := by
  intro ps
  induction ps with
  | nil =>
    intro st st' _ pl hpl
    simp at hpl
  | cons pl0 rest ih =>
    intro st st' hres pl hpl e he
    rcases hre : resolveEntries sat pl0.1 pl0.2.1 pl0.2.2 st with ⟨o, st1⟩
    cases o with
    | some m =>
      rw [resolvePlugins_cons_err rest hre] at hres
      simp at hres
    | none =>
      rw [resolvePlugins_cons_ok rest hre] at hres
      have hEvol1 : Evol st st1 := by
        have hh := resolveEntries_evol sat pl0.1 pl0.2.1 pl0.2.2 st
        rw [hre] at hh
        exact hh
      rcases List.mem_cons.mp hpl with rfl | hrest
      · exact resolveEntries_success_sat sat pl.1 pl.2.1 pl.2.2 st st1 hre e he
      · obtain ⟨stM, B, hEvol, hfind, hv⟩ := ih st1 st' hres pl hrest e he
        exact ⟨stM, B, evol_trans hEvol1 hEvol, hfind, hv⟩

lemma resolveEntries_error_origin (sat : String → String → Bool)
    (k pname : String) :
    ∀ (entries : List (String × String)) (st stE : Reg) (m : String),
      resolveEntries sat k pname entries st = (some m, stE) →
      ∃ e ∈ entries, ∃ stM, Evol st stM ∧
        resolveStep sat stM k pname e = Except.error m := by
  intro entries
  induction entries with
  | nil =>
    intro st stE m hres
    simp [resolveEntries_nil] at hres
  | cons e0 rest ih =>
    intro st stE m hres
    cases hstep : resolveStep sat st k pname e0 with
    | error m0 =>
      rw [resolveEntries_cons_err rest hstep] at hres
      simp only [Prod.mk.injEq, Option.some.injEq] at hres
      obtain ⟨rfl, _⟩ := hres
      exact ⟨e0, List.mem_cons_self e0 rest, st, evol_refl st, hstep⟩
    | ok st1 =>
      rw [resolveEntries_cons_ok rest hstep] at hres
      obtain ⟨e, he, stM, hEvol, hstep2⟩ := ih st1 stE m hres
      exact ⟨e, List.mem_cons_of_mem e0 he, stM,
        evol_trans (resolveStep_evol hstep) hEvol, hstep2⟩

lemma resolvePlugins_error_origin (sat : String → String → Bool) :
    ∀ (ps : List (String × String × List (String × String)))
      (st stE : Reg) (m : String),
      resolvePlugins sat ps st = (some m, stE) →
      ∃ pl ∈ ps, ∃ e ∈ pl.2.2, ∃ stM, Evol st stM ∧
        resolveStep sat stM pl.1 pl.2.1 e = Except.error m := by
  intro ps
  induction ps with
  | nil =>
    intro st stE m hres
    simp [resolvePlugins_nil] at hres
  | cons pl0 rest ih =>
    intro st stE m hres
    rcases hre : resolveEntries sat pl0.1 pl0.2.1 pl0.2.2 st with ⟨o, st1⟩
    cases o with
    | some m0 =>
      rw [resolvePlugins_cons_err rest hre] at hres
      simp only [Prod.mk.injEq, Option.some.injEq] at hres
      obtain ⟨rfl, _⟩ := hres
      obtain ⟨e, he, stM, hEvol, hstep⟩ :=
        resolveEntries_error_origin sat pl0.1 pl0.2.1 pl0.2.2 st st1 m0 hre
      exact ⟨pl0, List.mem_cons_self pl0 rest, e, he, stM, hEvol, hstep⟩
    | none =>
      rw [resolvePlugins_cons_ok rest hre] at hres
      have hEvol1 : Evol st st1 := by
        have hh := resolveEntries_evol sat pl0.1 pl0.2.1 pl0.2.2 st
        rw [hre] at hh
        exact hh
      obtain ⟨pl, hpl, e, he, stM, hEvol, hstep⟩ := ih st1 stE m hres
      exact ⟨pl, List.mem_cons_of_mem pl0 hpl, e, he, stM,
        evol_trans hEvol1 hEvol, hstep⟩

lemma resolveStep_no_ghost {sat : String → String → Bool} {st : Reg}
    {k pname : String} {e : String × String} {st1 : Reg} (d : String)
    (h : resolveStep sat st k pname e = Except.ok st1)
    (hdm : findP st d = none) (hno : ∀ f ∈ st, d ∉ f.2.dependencies) :
    findP st1 d = none ∧ ∀ f ∈ st1, d ∉ f.2.dependencies := by
  have hd1 : e.1 ≠ d := by
    intro hh
    obtain ⟨B, hB, _, _⟩ := resolveStep_ok_elim h
    rw [hh, hdm] at hB
    exact Option.noConfusion hB
  refine ⟨evol_findP_none (resolveStep_evol h) hdm, ?_⟩
  obtain ⟨B, hB, _, rfl⟩ := resolveStep_ok_elim h
  intro f hf
  obtain ⟨g, hg, hcase⟩ := mem_updP hf
  obtain ⟨g0, hg0, hcase0⟩ := mem_updP hg
  have hg0d : d ∉ g0.2.dependencies := hno g0 hg0
  have hgd : d ∉ g.2.dependencies := by
    rcases hcase0 with rfl | rfl
    · exact hg0d
    · exact hg0d
  rcases hcase with rfl | rfl
  · exact hgd
  · intro hmem
    rcases mem_oset_elim hmem with hmem | hmem
    · exact hgd hmem
    · exact hd1 hmem.symm

lemma resolveEntries_no_ghost (sat : String → String → Bool)
    (k pname : String) (d : String) :
    ∀ (entries : List (String × String)) (st : Reg),
      findP st d = none → (∀ f ∈ st, d ∉ f.2.dependencies) →
      findP (resolveEntries sat k pname entries st).2 d = none ∧
      ∀ f ∈ (resolveEntries sat k pname entries st).2,
        d ∉ f.2.dependencies := by
  intro entries
  induction entries with
  | nil =>
    intro st hdm hno
    rw [resolveEntries_nil]
    exact ⟨hdm, hno⟩
  | cons e0 rest ih =>
    intro st hdm hno
    cases hstep : resolveStep sat st k pname e0 with
    | error m =>
      rw [resolveEntries_cons_err rest hstep]
      exact ⟨hdm, hno⟩
    | ok st1 =>
      rw [resolveEntries_cons_ok rest hstep]
      obtain ⟨h1, h2⟩ := resolveStep_no_ghost d hstep hdm hno
      exact ih st1 h1 h2

lemma resolvePlugins_no_ghost (sat : String → String → Bool) (d : String) :
    ∀ (ps : List (String × String × List (String × String))) (st : Reg),
      findP st d = none → (∀ f ∈ st, d ∉ f.2.dependencies) →
      findP (resolvePlugins sat ps st).2 d = none ∧
      ∀ f ∈ (resolvePlugins sat ps st).2, d ∉ f.2.dependencies := by
  intro ps
  induction ps with
  | nil =>
    intro st hdm hno
    rw [resolvePlugins_nil]
    exact ⟨hdm, hno⟩
  | cons pl0 rest ih =>
    intro st hdm hno
    obtain ⟨h1, h2⟩ :=
      resolveEntries_no_ghost sat pl0.1 pl0.2.1 d pl0.2.2 st hdm hno
    rcases hre : resolveEntries sat pl0.1 pl0.2.1 pl0.2.2 st with ⟨o, st1⟩
    rw [hre] at h1 h2
    cases o with
    | some m =>
      rw [resolvePlugins_cons_err rest hre]
      exact ⟨h1, h2⟩
    | none =>
      rw [resolvePlugins_cons_ok rest hre]
      exact ih st1 h1 h2

lemma resolve_success_eq {sat : String → String → Bool} {st : Reg}
    (h : (Registry.resolve sat st).1 = none) :
    resolvePlugins sat (st.map (fun e => (e.1, e.2.name, e.2.metaDeps))) st =
      (none, (Registry.resolve sat st).2) := by
  have h2 : Registry.resolve sat st =
      ((Registry.resolve sat st).1, (Registry.resolve sat st).2) := rfl
  rw [h] at h2
  exact h2

lemma resolve_error_eq {sat : String → String → Bool} {st : Reg} {m : String}
    (h : (Registry.resolve sat st).1 = some m) :
    resolvePlugins sat (st.map (fun e => (e.1, e.2.name, e.2.metaDeps))) st =
      (some m, (Registry.resolve sat st).2) := by
  have h2 : Registry.resolve sat st =
      ((Registry.resolve sat st).1, (Registry.resolve sat st).2) := rfl
  rw [h] at h2
  exact h2

/-- C7: if every entry of `resolve()` succeeds, then for a plugin `A` stored
under key `ka` that declares `(d, r)` with the registered dependency `B`
satisfying the range, the links are bidirectional afterwards: the plugin now
stored under `ka` (the mutated `A`, same identity/name) has `d` among its
`dependencies` keys, and the plugin stored under `d` (the mutated `B`) has
`A.name` among its `dependents` keys — the stored link values being the
registry objects under those keys. -/
theorem C7_resolve_links_bidirectional (sat : String → String → Bool)
    (st : Reg) (ka d r : String) (A B : SPlugin)
    (hA : findP st ka = some A)
    (hd : (d, r) ∈ A.metaDeps)
    (hB : findP st d = some B)
    (hsat : sat B.version r = true)
    (hres : (Registry.resolve sat st).1 = none) :
    ∃ A1 B1, findP (Registry.resolve sat st).2 ka = some A1 ∧
      findP (Registry.resolve sat st).2 d = some B1 ∧
      A1.name = A.name ∧ B1.name = B.name ∧
      d ∈ A1.dependencies ∧ A.name ∈ B1.dependents := by
  have hsucc := resolve_success_eq hres
  have hplmem : (ka, A.name, A.metaDeps) ∈
      st.map (fun e => (e.1, e.2.name, e.2.metaDeps)) :=
    List.mem_map_of_mem _ (findP_mem hA)
  obtain ⟨⟨A1, hA1, hA1d⟩, ⟨B1, hB1, hB1d⟩⟩ :=
    resolvePlugins_success_links sat _ st _ hsucc
      (ka, A.name, A.metaDeps) hplmem ⟨A, hA⟩ (d, r) hd
  have hEvol : Evol st (Registry.resolve sat st).2 := by
    have hh := resolvePlugins_evol sat
      (st.map (fun e => (e.1, e.2.name, e.2.metaDeps))) st
    exact hh
  have hnameA : A1.name = A.name := by
    obtain ⟨A2, hA2, hAe⟩ := evol_findP_some hEvol hA
    rw [hA1] at hA2
    have h12 : A1 = A2 := Option.some.inj hA2
    rw [h12]
    exact hAe.1
  have hnameB : B1.name = B.name := by
    obtain ⟨B2, hB2, hBe⟩ := evol_findP_some hEvol hB
    rw [hB1] at hB2
    have h12 : B1 = B2 := Option.some.inj hB2
    rw [h12]
    exact hBe.1
  exact ⟨A1, B1, hA1, hB1, hnameA, hnameB, hA1d, hB1d⟩

/-- C7 witness: resolving the registry where `a` requires `^1.0.0` of `b`
(at version `1.0.0`, under the spec-modelled semver oracle) links `a` and
`b` bidirectionally. -/
theorem C7_witness :
    ∃ A1 B1, findP (Registry.resolve semverSatisfies regOK).2 "a" = some A1 ∧
      findP (Registry.resolve semverSatisfies regOK).2 "b" = some B1 ∧
      A1.name = pOKa.name ∧ B1.name = pOKb.name ∧
      "b" ∈ A1.dependencies ∧ pOKa.name ∈ B1.dependents :=
  C7_resolve_links_bidirectional semverSatisfies regOK "a" "b" "^1.0.0"
    pOKa pOKb (by decide) (by decide) (by decide) (by decide) (by decide)

/-- C5 counterexample: for the registry where `alpha` depends on the
unregistered name `ghost`, the error thrown by `resolve()` is
`Dependency ghost missing.` — the dependent plugin's name `alpha` does not
occur anywhere in the error, so the claim that the failure names A is
false (the code's message only names the missing dependency). -/
theorem C5_counterexample :
    (Registry.resolve semverSatisfies regGhost).1 =
      some "Dependency ghost missing." ∧
    containsL "alpha".toList "Dependency ghost missing.".toList = false := by
  exact ⟨by decide, by decide⟩

/-- C5 as amended: if a registered plugin `A` (stored under `ka`) declares a
dependency on an unregistered name `d`, no plugin has a `d` link yet, and
every registered dependency of every plugin satisfies its range (so that no
version mismatch fires first under resolve's fail-fast iteration), then
`resolve()` fails with the missing-dependency error naming some genuinely
unregistered name — the message does not carry the dependent plugin's name —
and no `dependencies` link under the key `d` is created anywhere (the throw
happens before the linking of the failing entry; a `dependents` link cannot
exist either since no object is stored under `d`). -/
theorem C5_missing_dependency (sat : String → String → Bool) (st : Reg)
    (ka d r : String) (A : SPlugin)
    (hA : findP st ka = some A)
    (hentry : (d, r) ∈ A.metaDeps)
    (hmiss : findP st d = none)
    (hnolink : ∀ f ∈ st, d ∉ f.2.dependencies)
    (hguard : ∀ f ∈ st, ∀ en ∈ f.2.metaDeps, ∀ B, findP st en.1 = some B →
      sat B.version en.2 = true) :
    (∃ dm, findP st dm = none ∧
      (Registry.resolve sat st).1 = some (s!"Dependency {dm} missing.")) ∧
    ∀ f ∈ (Registry.resolve sat st).2, d ∉ f.2.dependencies := by
  constructor
  · cases hres : (Registry.resolve sat st).1 with
    | none =>
      exfalso
      have hsucc := resolve_success_eq hres
      have hplmem : (ka, A.name, A.metaDeps) ∈
          st.map (fun e => (e.1, e.2.name, e.2.metaDeps)) :=
        List.mem_map_of_mem _ (findP_mem hA)
      obtain ⟨stM, B, hEvol, hfind, _⟩ :=
        resolvePlugins_success_sat sat _ st _ hsucc
          (ka, A.name, A.metaDeps) hplmem (d, r) hentry
      have hnone : findP stM d = none := evol_findP_none hEvol hmiss
      rw [hnone] at hfind
      exact Option.noConfusion hfind
    | some m =>
      have herr := resolve_error_eq hres
      obtain ⟨pl, hpl, e, he, stM, hEvol, hstep⟩ :=
        resolvePlugins_error_origin sat _ st _ m herr
      obtain ⟨g, hg, hgpl⟩ := List.mem_map.mp hpl
      rcases resolveStep_error_cases hstep with ⟨hm1, hm2⟩ | ⟨B, hBM, hv, hm2⟩
      · refine ⟨e.1, evol_findP_none_rev hEvol hm1, ?_⟩
        rw [hm2]
      · exfalso
        obtain ⟨B0, hB0, hB0e⟩ := evol_findP_some_rev hEvol hBM
        have hmem : e ∈ g.2.metaDeps := by
          rw [← hgpl] at he
          exact he
        have hsat2 := hguard g hg e hmem B0 hB0
        have hsat3 : sat B.version e.2 = true := by
          rw [hB0e.2.1]
          exact hsat2
        simp [hsat3] at hv
  · have hng := resolvePlugins_no_ghost sat d
      (st.map (fun e => (e.1, e.2.name, e.2.metaDeps))) st hmiss hnolink
    exact hng.2

/-- C5 amended witness: the concrete `alpha`-depends-on-`ghost` registry. -/
theorem C5_witness :
    (∃ dm, findP regGhost dm = none ∧
      (Registry.resolve semverSatisfies regGhost).1 =
        some (s!"Dependency {dm} missing.")) ∧
    ∀ f ∈ (Registry.resolve semverSatisfies regGhost).2,
      "ghost" ∉ f.2.dependencies :=
  C5_missing_dependency semverSatisfies regGhost "alpha" "ghost" "^1.0.0"
    ⟨"alpha", "1.0.0", [("ghost", "^1.0.0")], [], []⟩
    (by decide) (by decide) (by decide) (by decide)
    (by
      intro f hf en hen B hB
      simp only [regGhost, List.mem_singleton] at hf
      subst hf
      simp only [List.mem_singleton] at hen
      subst hen
      rw [show findP regGhost "ghost" = none from rfl] at hB
      exact Option.noConfusion hB)

/-- C6: if every declared dependency of every registered plugin is itself
registered (so that no missing-dependency error fires first under resolve's
fail-fast iteration) and some plugin declares a range its registered
dependency's version does not satisfy (per the `sat` oracle standing for
`semver.satisfies`), then `resolve()` fails with the version-mismatch error
identifying a genuinely violating dependency name, its version, and the
requested range. -/
theorem C6_version_mismatch (sat : String → String → Bool) (st : Reg)
    (hnomiss : ∀ f ∈ st, ∀ en ∈ f.2.metaDeps, ∃ B, findP st en.1 = some B)
    (hviol : ∃ f ∈ st, ∃ en ∈ f.2.metaDeps, ∃ B, findP st en.1 = some B ∧
      sat B.version en.2 = false) :
    ∃ dn v rg, (Registry.resolve sat st).1 =
        some (s!"{dn} {v} does not satisfy {rg}.") ∧
      ∃ B, findP st dn = some B ∧ B.version = v ∧ sat v rg = false ∧
        ∃ f ∈ st, (dn, rg) ∈ f.2.metaDeps := by
  cases hres : (Registry.resolve sat st).1 with
  | none =>
    exfalso
    obtain ⟨f, hf, en, hen, B, hB, hv⟩ := hviol
    have hsucc := resolve_success_eq hres
    have hplmem : (f.1, f.2.name, f.2.metaDeps) ∈
        st.map (fun e => (e.1, e.2.name, e.2.metaDeps)) :=
      List.mem_map_of_mem _ hf
    obtain ⟨stM, B2, hEvol, hfind, hv2⟩ :=
      resolvePlugins_success_sat sat _ st _ hsucc
        (f.1, f.2.name, f.2.metaDeps) hplmem en hen
    obtain ⟨B3, hB3, hBe⟩ := evol_findP_some hEvol hB
    rw [hfind] at hB3
    have hBeq : B2 = B3 := Option.some.inj hB3
    have hver : B2.version = B.version := by
      rw [hBeq]
      exact hBe.2.1
    rw [hver] at hv2
    simp [hv] at hv2
  | some m =>
    have herr := resolve_error_eq hres
    obtain ⟨pl, hpl, e, he, stM, hEvol, hstep⟩ :=
      resolvePlugins_error_origin sat _ st _ m herr
    obtain ⟨g, hg, hgpl⟩ := List.mem_map.mp hpl
    have hmem : e ∈ g.2.metaDeps := by
      rw [← hgpl] at he
      exact he
    rcases resolveStep_error_cases hstep with ⟨hm1, hm2⟩ | ⟨B, hBM, hv, hm2⟩
    · exfalso
      have hnone : findP st e.1 = none := evol_findP_none_rev hEvol hm1
      obtain ⟨B, hB⟩ := hnomiss g hg e hmem
      rw [hnone] at hB
      exact Option.noConfusion hB
    · obtain ⟨B0, hB0, hB0e⟩ := evol_findP_some_rev hEvol hBM
      refine ⟨e.1, B.version, e.2, by rw [hm2], B0, hB0,
        hB0e.2.1.symm, hv, g, hg, hmem⟩

/-- C6 witness: `b` at version `1.0.0`, `a` requiring `^2.0.0` of `b`,
under the spec-modelled semver oracle. -/
theorem C6_witness :
    ∃ dn v rg, (Registry.resolve semverSatisfies regVer).1 =
        some (s!"{dn} {v} does not satisfy {rg}.") ∧
      ∃ B, findP regVer dn = some B ∧ B.version = v ∧
        semverSatisfies v rg = false ∧
        ∃ f ∈ regVer, (dn, rg) ∈ f.2.metaDeps :=
  C6_version_mismatch semverSatisfies regVer
    (by
      intro f hf en hen
      simp only [regVer, List.mem_cons, List.not_mem_nil, or_false] at hf
      rcases hf with rfl | rfl
      · simp at hen
      · simp at hen
        subst hen
        exact ⟨⟨"b", "1.0.0", [], [], []⟩, rfl⟩)
    ⟨("a", ⟨"a", "1.0.0", [("b", "^2.0.0")], [], []⟩), by decide,
      ("b", "^2.0.0"), by decide, ⟨"b", "1.0.0", [], [], []⟩, by decide,
      by decide⟩

lemma findP_any {st : Reg} {n : String} {q : SPlugin}
    (h : findP st n = some q) : st.any (fun e => e.1 = n) = true := by
  induction st with
  | nil => simp [findP] at h
  | cons e rest ih =>
    by_cases he : e.1 = n
    · simp [List.any_cons, he]
    · rw [findP, if_neg he] at h
      simp only [List.any_cons]
      simp [he, ih h]

lemma findP_replace_same (st : Reg) (n : String) (p : SPlugin)
    (h : st.any (fun e => e.1 = n) = true) :
    findP (st.map (fun e => if e.1 = n then (n, p) else e)) n = some p := by
  induction st with
  | nil => simp at h
  | cons e rest ih =>
    by_cases he : e.1 = n
    · simp [findP, he]
    · simp only [List.map_cons, if_neg he]
      rw [findP, if_neg he]
      apply ih
      simpa [he] using h

lemma findP_replace_ne (st : Reg) (n : String) (p : SPlugin) (m : String)
    (h : m ≠ n) :
    findP (st.map (fun e => if e.1 = n then (n, p) else e)) m = findP st m := by
  induction st with
  | nil => rfl
  | cons e rest ih =>
    by_cases he : e.1 = n
    · have hnm : ¬ n = m := fun hh => h hh.symm
      have hem : ¬ e.1 = m := by
        rw [he]
        exact hnm
      simp [findP, he, hnm, hem, ih]
    · by_cases hem : e.1 = m
      · simp [findP, he, hem, h]
      · simp [findP, he, hem, ih]

/-- C10: when a plugin is already stored under `n`, `set(n, p)` (with any
Plugin instance `p`) does not fail — unlike the Injector, the Registry has
no duplicate-name check — it silently replaces the stored plugin in place,
returns the new plugin, and leaves every other key unchanged; and
`registry.plugin(n, metadata)` with metadata present, whenever the Plugin
constructor succeeds (non-empty name, valid semantic version — on invalid
metadata it throws `InvalidVersionError` instead and nothing is
overwritten), likewise overwrites the registration under `n` with the
freshly constructed plugin. -/
theorem C10_set_replaces_silently (st : Reg) (n : String) (p q pnew : SPlugin)
    (md : PMeta) (hq : findP st n = some q)
    (hmk : mkPlugin n md = Except.ok pnew) :
    (Registry.set st n p).2 = p ∧
    findP (Registry.set st n p).1 n = some p ∧
    (∀ m, m ≠ n → findP (Registry.set st n p).1 m = findP st m) ∧
    Registry.plugin st n md = Except.ok (Registry.set st n pnew) ∧
    findP (Registry.set st n pnew).1 n = some pnew := by
  have hany := findP_any hq
  refine ⟨rfl, ?_, ?_, ?_, ?_⟩
  · simp only [Registry.set, if_pos hany]
    exact findP_replace_same st n p hany
  · intro m hm
    simp only [Registry.set, if_pos hany]
    exact findP_replace_ne st n p m hm
  · simp only [Registry.plugin, hmk]
  · simp only [Registry.set, if_pos hany]
    exact findP_replace_same st n pnew hany

/-- C10 witness: replacing the stored `b` of `regOK` with another plugin,
and re-registering `b` through `registry.plugin` with valid metadata
(version `9.9.9`), which the Plugin constructor accepts. -/
theorem C10_witness :
    (Registry.set regOK "b" pA0).2 = pA0 ∧
    findP (Registry.set regOK "b" pA0).1 "b" = some pA0 ∧
    (∀ m, m ≠ "b" → findP (Registry.set regOK "b" pA0).1 m = findP regOK m) ∧
    Registry.plugin regOK "b" ⟨"9.9.9", []⟩ =
      Except.ok (Registry.set regOK "b" ⟨"b", "9.9.9", [], [], []⟩) ∧
    findP (Registry.set regOK "b" ⟨"b", "9.9.9", [], [], []⟩).1 "b" =
      some ⟨"b", "9.9.9", [], [], []⟩ :=
  C10_set_replaces_silently regOK "b" pA0 pOKb ⟨"b", "9.9.9", [], [], []⟩
    ⟨"9.9.9", []⟩ (by decide) rfl

lemma values_cons {E V : Type} (g : String → Except E V) (d : Descriptor)
    (rest : List Descriptor) :
    DependencyCollection.values g (d :: rest) =
      match g d.name with
      | Except.error e => Except.error e
      | Except.ok v =>
        match DependencyCollection.values g rest with
        | Except.error e => Except.error e
        | Except.ok vs => Except.ok (v :: vs) := rfl

/-- C9: `values()` resolves the collection in order through the bound
injector's `get`: on success it returns exactly one resolved instance per
descriptor — same length, position `i` holding `get(collection[i].name)` —
and when some `get` throws, the first such error propagates out of
`values()` unmodified (every earlier descriptor resolved successfully). -/
theorem C9_values_pointwise {E V : Type} (g : String → Except E V)
    (items : List Descriptor) :
    (∃ vs, DependencyCollection.values g items = Except.ok vs ∧
      vs.length = items.length ∧
      ∀ i : Nat, (vs.get? i).map Except.ok =
        (items.get? i).map (fun d => g d.name)) ∨
    (∃ e i d, DependencyCollection.values g items = Except.error e ∧
      items.get? i = some d ∧ g d.name = Except.error e ∧
      ((items.take i).all (fun x => (g x.name).isOk)) = true) := by
  induction items with
  | nil =>
    left
    exact ⟨[], rfl, rfl, fun i => by simp⟩
  | cons d rest ih =>
    cases hg : g d.name with
    | error e =>
      right
      refine ⟨e, 0, d, ?_, rfl, hg, by simp⟩
      rw [values_cons, hg]
    | ok v =>
      rcases ih with ⟨vs, hok, hlen, hpt⟩ | ⟨e, i, d2, herr, hget, hgd, hall⟩
      · left
        refine ⟨v :: vs, ?_, by simp [hlen], ?_⟩
        · rw [values_cons, hg, hok]
        · intro i
          cases i with
          | zero => simp [hg]
          | succ i => simpa using hpt i
      · right
        refine ⟨e, i + 1, d2, ?_, hget, hgd, ?_⟩
        · rw [values_cons, hg, herr]
        · simp only [List.take_succ_cons, List.all_cons]
          rw [hg]
          simp [hall]
          rfl
